import Mathlib

/-!
Verification of the children-flattening core (`ReactChildren.js`) of the
repository: the key escapers, the positional key resolver, the recursive
flattener `mapIntoArray`, and the public operations `map`, `forEach`,
`count`, `toArray`, `only`.

The JavaScript values that can appear in a `children` tree are modelled by
the inductive type `Child` below; JavaScript machine behaviour that matters
(loose `== null`, truthiness, strict key comparison) is made explicit in
small helper definitions next to the functions that use them.
-/

namespace ReactChildren

/-- The tag (`$$typeof`) distinguishing the two recognized leaf subvariants:
`REACT_ELEMENT_TYPE` and `REACT_PORTAL_TYPE`. -/
inductive LeafTag where
  | element
  | portal
deriving DecidableEq, Repr

/-- A JavaScript value that can occur in a children tree:
`null`, `undefined`, a boolean, a string, a number, an element-like leaf
(carrying its optional user key and its `$$typeof` tag), an array, a custom
iterable (modelled by the list of values its iterator yields), or a plain
object (carrying its enumerable key names and the result of `'' + obj`). -/
inductive Child where
  | null
  | undef
  | bool (b : Bool)
  | str (s : String)
  | num (n : Int)
  | elem (key : Option String) (tag : LeafTag)
  | arr (xs : List Child)
  | iter (xs : List Child)
  | obj (keys : List String) (strForm : String)

/-- The two error kinds the module can raise through `invariant`. -/
inductive ReactError where
  | invalidChildType (message : String)
  | notSingleElement (message : String)
deriving DecidableEq, Repr

/-- `const SEPARATOR = '.'` -/
def SEPARATOR : String := "."

/-- `const SUBSEPARATOR = ':'` -/
def SUBSEPARATOR : String := ":"

/-- Character translation of `escape`: `=` becomes `=0`, `:` becomes `=2`,
every other character is kept (the global regex `/[=:]/g` with the lookup
table). -/
def escapeChars : List Char → List Char
  | [] => []
  | c :: r =>
    (if c = '=' then ['=', '0'] else if c = ':' then ['=', '2'] else [c]) ++ escapeChars r

/-- `escape(key)`: replace `=`/`:` via `escapeChars` and prefix `$`. -/
def escape (key : String) : String :=
  String.mk ('$' :: escapeChars key.data)

/-- Character translation of `escapeUserProvidedKey`: the regex replace
`text.replace(/\/+/g, '$&/')` appends one `/` after each maximal run of
`/` characters. -/
def eukChars : List Char → List Char
  | [] => []
  | c :: r =>
    if c = '/' then
      if r.head? = some '/' then '/' :: eukChars r
      else '/' :: '/' :: eukChars r
    else c :: eukChars r

/-- `escapeUserProvidedKey(text)`. -/
def escapeUserProvidedKey (text : String) : String :=
  String.mk (eukChars text.data)

/-- Digit character used by JavaScript `Number.prototype.toString(36)`:
`0`-`9` then `a`-`z`. -/
def base36DigitChar (n : Nat) : Char :=
  if n < 10 then Char.ofNat (48 + n) else Char.ofNat (87 + n)

/-- Fuelled base-36 digit accumulator (the fuel only needs to be at least
the number of digits; callers pass `n + 1`). -/
def toBase36Aux : Nat → Nat → List Char → List Char
  | 0, _, acc => acc
  | fuel + 1, n, acc =>
    if n < 36 then base36DigitChar n :: acc
    else toBase36Aux fuel (n / 36) (base36DigitChar (n % 36) :: acc)

/-- `index.toString(36)` for a non-negative index. -/
def natToBase36 (n : Nat) : String :=
  String.mk (toBase36Aux (n + 1) n [])

/-- `getElementKey(element, index)`: an object with a non-null `key`
property yields `escape('' + key)`; anything else yields the index in
base 36. -/
def getElementKey (element : Child) (index : Nat) : String :=
  match element with
  | .elem (some k) _ => escape k
  | _ => natToBase36 index

/-- Modelled from the spec: the leaf-identity predicate `isValidElement`
imported from `./ReactElement` (not part of the excerpt). Per §6 the leaf
abstraction "must expose a predicate 'is this a recognized leaf value'",
recognizing both leaf subvariants. -/
def isValidElement : Child → Bool
  | .elem _ _ => true
  | _ => false

/-- Modelled from the spec: the clone-with-new-key operation
`cloneAndReplaceKey` imported from `./ReactElement` (not part of the
excerpt). Per §9 it is "a pure function `withKey(leaf, newKey) -> leaf'`"
preserving all other leaf attributes and the type tag. -/
def cloneAndReplaceKey (c : Child) (newKey : String) : Child :=
  match c with
  | .elem _ tag => .elem (some newKey) tag
  | other => other

/-- JavaScript loose `mappedChild != null`: false exactly for `null` and
`undefined`. `isNullish c = true` means `c == null` holds in JS. -/
def isNullish : Child → Bool
  | .null => true
  | .undef => true
  | _ => false

/-- `Array.isArray`. -/
def isArr : Child → Bool
  | .arr _ => true
  | _ => false

/-- JavaScript falsiness `!child` for the values a leaf `child` can be
after normalization: `null`, the empty string, and `0` are falsy. -/
def childFalsy : Child → Bool
  | .null => true
  | .undef => true
  | .bool b => !b
  | .str s => s = ""
  | .num n => n = 0
  | _ => false

/-- JavaScript truthiness of a `key` value (`mappedChild.key && ...`):
`null` and the empty string are falsy. -/
def keyTruthy : Option String → Bool
  | some s => s ≠ ""
  | none => false

/-- The `key` property of a value (`undefined`-or-`null` collapsed to
`none` for non-leaf values, which carry no `key` property). -/
def elemKey : Child → Option String
  | .elem k _ => k
  | _ => none

/-- JavaScript strict `child.key !== mappedChild.key` where `mcKey` is
`mappedChild.key`: a non-object `child` has `child.key === undefined`,
which is strictly unequal to any string or `null`... the comparison only
matters under `keyTruthy mcKey`, where `mcKey` is a non-empty string. -/
def childKeyStrictNe (child : Child) (mcKey : Option String) : Bool :=
  match child with
  | .elem k _ => decide (k ≠ mcKey)
  | _ => true

/-- The conditional key fragment of the clone-and-replace-key branch
(lines 143-148): `mappedChild.key && (!child || child.key !== mappedChild.key)
? escapeUserProvidedKey('' + mappedChild.key) + '/' : ''`. -/
def keyFragment (child mappedChild : Child) : String :=
  if keyTruthy (elemKey mappedChild) &&
      (childFalsy child || childKeyStrictNe child (elemKey mappedChild)) then
    escapeUserProvidedKey ((elemKey mappedChild).getD "") ++ "/"
  else ""

/-- The message passed to `invariant` when a plain object is found
(lines 212-222). -/
def invalidObjectMessage (keys : List String) (strForm : String) : String :=
  "Objects are not valid as a React child (found: " ++
    (if strForm = "[object Object]" then
      "object with keys \x7b" ++ String.intercalate ", " keys ++ "\x7d"
    else strForm) ++
    "). If you meant to render a collection of children, use an array instead."

/-- `undefined` and booleans are perceived as `null` (lines 91-96). -/
def normalizeChild : Child → Child
  | .undef => .null
  | .bool _ => .null
  | c => c

/-- The `invokeCallback` classification (lines 98-116): `null`, strings,
numbers, and objects whose `$$typeof` is the element or portal tag are
single children; everything else is traversed. -/
def invokeCallbackP : Child → Bool
  | .null => true
  | .str _ => true
  | .num _ => true
  | .elem _ _ => true
  | _ => false

/-- The leaf case of the flattener (lines 118-156) for the identity
callback: `mappedChild := child`; compute `childKey`; `null` pushes
nothing, a valid element is cloned with the composed key, anything else is
pushed unchanged; the visitation count is 1. -/
def mapLeafId (child : Child) (escapedPref nameSoFar : String) :
    Except ReactError (List Child × Nat) :=
  let mappedChild := child
  let childKey :=
    if nameSoFar = "" then SEPARATOR ++ getElementKey child 0 else nameSoFar
  if isNullish mappedChild then .ok ([], 1)
  else if isValidElement mappedChild then
    .ok ([cloneAndReplaceKey mappedChild
      (escapedPref ++ keyFragment child mappedChild ++ childKey)], 1)
  else .ok ([mappedChild], 1)

mutual

/-- `mapIntoArray(children, array, escapedPrefix, nameSoFar, c => c)` —
the flattener specialized to the identity callback, exactly as invoked on
a callback-returned array (line 135). With the identity callback,
`mappedChild` is the (normalized) `child` itself; since the leaf case is
only reached for `null` / string / number / element values,
`Array.isArray(mappedChild)` is false there and that branch is omitted.
Returns the entries pushed onto `array` and the subtree visitation count. -/
def mapIntoArrayId (children : Child) (escapedPref nameSoFar : String) :
    Except ReactError (List Child × Nat) :=
  match children with
  | .undef | .bool _ | .null => mapLeafId .null escapedPref nameSoFar
  | .str s => mapLeafId (.str s) escapedPref nameSoFar
  | .num n => mapLeafId (.num n) escapedPref nameSoFar
  | .elem k t => mapLeafId (.elem k t) escapedPref nameSoFar
  | .arr xs =>
      mapIntoArrayIdList xs 0 escapedPref
        (if nameSoFar = "" then SEPARATOR else nameSoFar ++ SUBSEPARATOR)
  | .iter xs =>
      mapIntoArrayIdList xs 0 escapedPref
        (if nameSoFar = "" then SEPARATOR else nameSoFar ++ SUBSEPARATOR)
  | .obj keys strForm =>
      .error (.invalidChildType (invalidObjectMessage keys strForm))

/-- The `for`/iterator loop of `mapIntoArray` (lines 164-211) for the
identity callback: visit `children[i]` under
`nextName = nextNamePrefix + getElementKey(child, i)`, accumulating pushed
entries and summing subtree counts. -/
def mapIntoArrayIdList (xs : List Child) (i : Nat)
    (escapedPref nextNamePref : String) :
    Except ReactError (List Child × Nat) :=
  match xs with
  | [] => .ok ([], 0)
  | x :: rest => do
      let (a₁, c₁) ← mapIntoArrayId x escapedPref
        (nextNamePref ++ getElementKey x i)
      let (a₂, c₂) ← mapIntoArrayIdList rest (i + 1) escapedPref nextNamePref
      .ok (a₁ ++ a₂, c₁ + c₂)

end

/-- The leaf case of the flattener (lines 118-156) for an arbitrary
callback. JavaScript closures may carry mutable state, so the callback is
modelled as a state-passing function `f : σ → Child → σ × Child`; the
source's `let mappedChild = callback(child)` becomes
`(s', mappedChild) := f s child`. When `mappedChild` is an array, it is
recursively flattened with `escapeUserProvidedKey(childKey) + '/'` as the
escaped prefix, an empty `nameSoFar`, and the identity callback
(lines 129-135; the `childKey != null` test always succeeds since
`childKey` is a string); the nested call's pushes land in the same
accumulator and its return value is discarded — the leaf case returns 1. -/
def mapLeaf {σ : Type} (f : σ → Child → σ × Child) (child : Child) (s : σ)
    (escapedPref nameSoFar : String) :
    Except ReactError (List Child × Nat × σ) :=
  let step := f s child
  let s' := step.1
  let mappedChild := step.2
  let childKey :=
    if nameSoFar = "" then SEPARATOR ++ getElementKey child 0 else nameSoFar
  if isArr mappedChild then
    let escapedChildKey := escapeUserProvidedKey childKey ++ "/"
    match mapIntoArrayId mappedChild escapedChildKey "" with
    | .error e => .error e
    | .ok (a, _) => .ok (a, 1, s')
  else if isNullish mappedChild then .ok ([], 1, s')
  else if isValidElement mappedChild then
    .ok ([cloneAndReplaceKey mappedChild
      (escapedPref ++ keyFragment child mappedChild ++ childKey)], 1, s')
  else .ok ([mappedChild], 1, s')

mutual

/-- `mapIntoArray(children, array, escapedPrefix, nameSoFar, callback)`
(lines 84-227) with a state-passing callback. Returns the entries pushed
onto `array`, the subtree visitation count, and the callback state. -/
def mapIntoArray {σ : Type} (f : σ → Child → σ × Child) (children : Child)
    (s : σ) (escapedPref nameSoFar : String) :
    Except ReactError (List Child × Nat × σ) :=
  match children with
  | .undef | .bool _ | .null => mapLeaf f .null s escapedPref nameSoFar
  | .str s' => mapLeaf f (.str s') s escapedPref nameSoFar
  | .num n => mapLeaf f (.num n) s escapedPref nameSoFar
  | .elem k t => mapLeaf f (.elem k t) s escapedPref nameSoFar
  | .arr xs =>
      mapIntoArrayList f xs 0 s escapedPref
        (if nameSoFar = "" then SEPARATOR else nameSoFar ++ SUBSEPARATOR)
  | .iter xs =>
      mapIntoArrayList f xs 0 s escapedPref
        (if nameSoFar = "" then SEPARATOR else nameSoFar ++ SUBSEPARATOR)
  | .obj keys strForm =>
      .error (.invalidChildType (invalidObjectMessage keys strForm))

/-- The `for`/iterator loop of `mapIntoArray` (lines 164-211): both the
array loop and the iterator loop visit successive values under
`nextName = nextNamePrefix + getElementKey(child, i)` with a per-container
index starting at 0, summing subtree counts. -/
def mapIntoArrayList {σ : Type} (f : σ → Child → σ × Child)
    (xs : List Child) (i : Nat) (s : σ) (escapedPref nextNamePref : String) :
    Except ReactError (List Child × Nat × σ) :=
  match xs with
  | [] => .ok ([], 0, s)
  | x :: rest => do
      let (a₁, c₁, s₁) ← mapIntoArray f x s escapedPref
        (nextNamePref ++ getElementKey x i)
      let (a₂, c₂, s₂) ← mapIntoArrayList f rest (i + 1) s₁ escapedPref
        nextNamePref
      .ok (a₁ ++ a₂, c₁ + c₂, s₂)

end

/-- The callback `mapChildren` hands to `mapIntoArray` (lines 256-258):
`function(child) { return func.call(context, child, count++); }`. The user
function's closure state σ and the internal invocation counter are
threaded together. -/
def wrap {σ : Type} (func : σ → Child → Nat → σ × Child) :
    σ × Nat → Child → (σ × Nat) × Child :=
  fun st child =>
    let r := func st.1 child st.2
    ((r.1, st.2 + 1), r.2)

/-- `mapChildren(children, func, context)` (lines 245-260). Returns
`none` when `children == null` (the source returns the `null`/`undefined`
input itself), otherwise `some` accumulator, paired with the final user
state. -/
def mapChildren {σ : Type} (children : Child)
    (func : σ → Child → Nat → σ × Child) (s₀ : σ) :
    Except ReactError (Option (List Child) × σ) :=
  if isNullish children then .ok (none, s₀)
  else
    (mapIntoArray (wrap func) children (s₀, 0) "" "").map
      (fun r => (some r.1, r.2.2.1))

/-- `countChildren(children)` (lines 272-279): map with a callback that
increments an external counter and returns nothing (`undefined`). -/
def countChildren (children : Child) : Except ReactError Nat :=
  (mapChildren children (fun n _ _ => (n + 1, Child.undef)) 0).map (·.2)

/-- `forEachChildren(children, forEachFunc, forEachContext)`
(lines 296-309): map with a callback that applies `forEachFunc` (a
stateful closure over σ) and returns nothing (`undefined`). -/
def forEachChildren {σ : Type} (children : Child)
    (f : σ → Child → Nat → σ) (s₀ : σ) : Except ReactError σ :=
  (mapChildren children (fun s c n => (f s c n, Child.undef)) s₀).map (·.2)

/-- `toArray(children)` (lines 318-320): `mapChildren(children, c => c) || []`.
A `null`/`undefined` result (and only such a result — an empty array is
truthy in JavaScript) is replaced by `[]`. -/
def toArray (children : Child) : Except ReactError (List Child) :=
  (mapChildren children (fun _ c _ => ((), c)) ()).map (fun r => r.1.getD [])

/-- `onlyChild(children)` (lines 336-342). -/
def onlyChild (children : Child) : Except ReactError Child :=
  if isValidElement children then .ok children
  else .error (.notSingleElement
    "React.Children.only expected to receive a single React element child.")

/-! ### Specification-side definitions used by the analysis -/

mutual

/-- The normalized leaves of a children tree in preorder: the sequence of
values the flattener invokes its callback on (plain objects, which abort
the traversal, contribute none). -/
def leavesPre : Child → List Child
  | .null => [.null]
  | .undef => [.null]
  | .bool _ => [.null]
  | .str s => [.str s]
  | .num n => [.num n]
  | .elem k t => [.elem k t]
  | .arr xs => leavesPreList xs
  | .iter xs => leavesPreList xs
  | .obj _ _ => []

/-- Preorder leaves of a list of children. -/
def leavesPreList : List Child → List Child
  | [] => []
  | x :: r => leavesPre x ++ leavesPreList r

end

mutual

/-- Whether a children tree contains a plain (invalid) object anywhere. -/
def containsObj : Child → Bool
  | .arr xs => containsObjList xs
  | .iter xs => containsObjList xs
  | .obj _ _ => true
  | _ => false

/-- Whether a list of children contains a plain object anywhere. -/
def containsObjList : List Child → Bool
  | [] => false
  | x :: r => containsObj x || containsObjList r

end

/-- The leaves a public operation actually visits: none at all when the
input is `null`/`undefined` (the `children == null` early return of
`mapChildren`), the preorder leaves otherwise. -/
def visitedLeaves (c : Child) : List Child :=
  if isNullish c then [] else leavesPre c

/-- Follows the claim's words (not the source): an escaper replacing each
`/` character with `//`, character by character. Compared with the
source's `escapeUserProvidedKey`, which appends one `/` per maximal run. -/
def eukEachChars : List Char → List Char
  | [] => []
  | c :: r => (if c = '/' then ['/', '/'] else [c]) ++ eukEachChars r

/-- Follows the claim's words (not the source): `escapeUserProvidedKey`
as the spec describes it, replacing each `/` with `//`. -/
def escapeUserProvidedKeyEach (text : String) : String :=
  String.mk (eukEachChars text.data)

/-- No two adjacent `/` characters (every `/` run has length 1). -/
def noDoubleSlash : List Char → Bool
  | [] => true
  | c :: r =>
    if c = '/' ∧ r.head? = some '/' then false else noDoubleSlash r

/-- Follows the spec's words (not the source): the leaf case where the
recursive flatten of a callback-returned array uses "an updated
`escapedPrefix` (old prefix + `escapeUserProvidedKey(childKey) + '/'` when
`childKey` is non-null)". Identical to `mapLeaf` except that the old
prefix is prepended to the escaped child key. -/
def mapLeafSpec {σ : Type} (f : σ → Child → σ × Child) (child : Child)
    (s : σ) (escapedPref nameSoFar : String) :
    Except ReactError (List Child × Nat × σ) :=
  let step := f s child
  let s' := step.1
  let mappedChild := step.2
  let childKey :=
    if nameSoFar = "" then SEPARATOR ++ getElementKey child 0 else nameSoFar
  if isArr mappedChild then
    let escapedChildKey := escapedPref ++ escapeUserProvidedKey childKey ++ "/"
    match mapIntoArrayId mappedChild escapedChildKey "" with
    | .error e => .error e
    | .ok (a, _) => .ok (a, 1, s')
  else if isNullish mappedChild then .ok ([], 1, s')
  else if isValidElement mappedChild then
    .ok ([cloneAndReplaceKey mappedChild
      (escapedPref ++ keyFragment child mappedChild ++ childKey)], 1, s')
  else .ok ([mappedChild], 1, s')

mutual

/-- Follows the spec's words (not the source): `mapIntoArray` with the
spec's leaf case `mapLeafSpec`; containers are traversed exactly as in the
source. -/
def mapIntoArraySpec {σ : Type} (f : σ → Child → σ × Child) (children : Child)
    (s : σ) (escapedPref nameSoFar : String) :
    Except ReactError (List Child × Nat × σ) :=
  match children with
  | .undef | .bool _ | .null => mapLeafSpec f .null s escapedPref nameSoFar
  | .str s' => mapLeafSpec f (.str s') s escapedPref nameSoFar
  | .num n => mapLeafSpec f (.num n) s escapedPref nameSoFar
  | .elem k t => mapLeafSpec f (.elem k t) s escapedPref nameSoFar
  | .arr xs =>
      mapIntoArrayListSpec f xs 0 s escapedPref
        (if nameSoFar = "" then SEPARATOR else nameSoFar ++ SUBSEPARATOR)
  | .iter xs =>
      mapIntoArrayListSpec f xs 0 s escapedPref
        (if nameSoFar = "" then SEPARATOR else nameSoFar ++ SUBSEPARATOR)
  | .obj keys strForm =>
      .error (.invalidChildType (invalidObjectMessage keys strForm))

/-- Container loop of `mapIntoArraySpec`, identical to the source's. -/
def mapIntoArrayListSpec {σ : Type} (f : σ → Child → σ × Child)
    (xs : List Child) (i : Nat) (s : σ) (escapedPref nextNamePref : String) :
    Except ReactError (List Child × Nat × σ) :=
  match xs with
  | [] => .ok ([], 0, s)
  | x :: rest => do
      let (a₁, c₁, s₁) ← mapIntoArraySpec f x s escapedPref
        (nextNamePref ++ getElementKey x i)
      let (a₂, c₂, s₂) ← mapIntoArrayListSpec f rest (i + 1) s₁ escapedPref
        nextNamePref
      .ok (a₁ ++ a₂, c₁ + c₂, s₂)

end

/-- Follows the spec's words (not the source): `mapChildren` built on
`mapIntoArraySpec`. -/
def mapChildrenSpec {σ : Type} (children : Child)
    (func : σ → Child → Nat → σ × Child) (s₀ : σ) :
    Except ReactError (Option (List Child) × σ) :=
  if isNullish children then .ok (none, s₀)
  else
    (mapIntoArraySpec (wrap func) children (s₀, 0) "" "").map
      (fun r => (some r.1, r.2.2.1))

/-- What the leaf case may push for a callback result `mc` that is not an
array: nothing when `mc` is nullish, a clone of `mc` under some key when it
is a recognized element, and `mc` itself otherwise. -/
def chunkOf (mc : Child) (chunk : List Child) : Prop :=
  (isNullish mc = true ∧ chunk = []) ∨
  (isValidElement mc = true ∧ ∃ key, chunk = [cloneAndReplaceKey mc key]) ∨
  (isNullish mc = false ∧ isValidElement mc = false ∧ isArr mc = false ∧
    chunk = [mc])

/-- `PushWalk f s leaves es s'`: running the stateful callback `f` from
state `s` over the given leaf sequence produces the concatenation `es` of
per-leaf push chunks and ends in state `s'`. -/
inductive PushWalk {σ : Type} (f : σ → Child → σ × Child) :
    σ → List Child → List Child → σ → Prop where
  | nil (s : σ) : PushWalk f s [] [] s
  | step (s : σ) (c : Child) (r es : List Child) (s' : σ)
      (chunk : List Child) (hc : chunkOf (f s c).2 chunk)
      (hw : PushWalk f (f s c).1 r es s') :
      PushWalk f s (c :: r) (chunk ++ es) s'

/-- Two output entries agree up to the re-keying of element leaves. -/
def sameModKey (out orig : Child) : Prop :=
  out = orig ∨ ∃ k k' t, orig = Child.elem k t ∧ out = Child.elem k' t

theorem PushWalk.append {σ : Type} {f : σ → Child → σ × Child}
    {s s₁ s₂ : σ} {l₁ l₂ e₁ e₂ : List Child}
    (h₁ : PushWalk f s l₁ e₁ s₁) (h₂ : PushWalk f s₁ l₂ e₂ s₂) :
    PushWalk f s (l₁ ++ l₂) (e₁ ++ e₂) s₂ := by
  induction h₁ with
  | nil => simpa using h₂
  | step s c r es s' chunk hc hw ih =>
      simpa [List.append_assoc] using PushWalk.step s c (r ++ l₂) (es ++ e₂)
        s₂ chunk hc (ih h₂)

@[simp] theorem except_bind_ok {ε α β : Type} (a : α) (f : α → Except ε β) :
    (Except.ok a >>= f) = f a := rfl

@[simp] theorem except_bind_error {ε α β : Type} (e : ε)
    (f : α → Except ε β) : ((Except.error e : Except ε α) >>= f) = .error e :=
  rfl

@[simp] theorem except_map_ok {ε α β : Type} (f : α → β) (a : α) :
    (Except.ok a : Except ε α).map f = .ok (f a) := rfl

@[simp] theorem except_map_error {ε α β : Type} (f : α → β) (e : ε) :
    (Except.error e : Except ε α).map f = .error e := rfl

theorem mapLeafId_isOk (child : Child) (p n : String) :
    ∃ v, mapLeafId child p n = .ok v := by
  simp only [mapLeafId]
  repeat' split
  all_goals exact ⟨_, rfl⟩

mutual

theorem mapIntoArrayId_error_ict (c : Child) (p n : String) (e : ReactError)
    (h : mapIntoArrayId c p n = .error e) :
    ∃ ks st, e = .invalidChildType (invalidObjectMessage ks st) := by
  cases c with
  | undef =>
      obtain ⟨v, hv⟩ := mapLeafId_isOk .null p n
      rw [mapIntoArrayId, hv] at h; exact absurd h (by simp)
  | bool b =>
      obtain ⟨v, hv⟩ := mapLeafId_isOk .null p n
      rw [mapIntoArrayId, hv] at h; exact absurd h (by simp)
  | null =>
      obtain ⟨v, hv⟩ := mapLeafId_isOk .null p n
      rw [mapIntoArrayId, hv] at h; exact absurd h (by simp)
  | str s =>
      obtain ⟨v, hv⟩ := mapLeafId_isOk (.str s) p n
      rw [mapIntoArrayId, hv] at h; exact absurd h (by simp)
  | num i =>
      obtain ⟨v, hv⟩ := mapLeafId_isOk (.num i) p n
      rw [mapIntoArrayId, hv] at h; exact absurd h (by simp)
  | elem k t =>
      obtain ⟨v, hv⟩ := mapLeafId_isOk (.elem k t) p n
      rw [mapIntoArrayId, hv] at h; exact absurd h (by simp)
  | arr xs =>
      rw [mapIntoArrayId] at h
      exact mapIntoArrayIdList_error_ict xs 0 p _ e h
  | iter xs =>
      rw [mapIntoArrayId] at h
      exact mapIntoArrayIdList_error_ict xs 0 p _ e h
  | obj keys strForm =>
      rw [mapIntoArrayId] at h
      exact ⟨keys, strForm, by injection h with h; exact h.symm⟩

theorem mapIntoArrayIdList_error_ict (xs : List Child) (i : Nat)
    (p pref : String) (e : ReactError)
    (h : mapIntoArrayIdList xs i p pref = .error e) :
    ∃ ks st, e = .invalidChildType (invalidObjectMessage ks st) := by
  cases xs with
  | nil => rw [mapIntoArrayIdList] at h; exact absurd h (by simp)
  | cons x rest =>
      rw [mapIntoArrayIdList] at h
      cases hx : mapIntoArrayId x p (pref ++ getElementKey x i) with
      | error e₁ =>
          rw [hx] at h
          simp only [except_bind_error] at h
          injection h with h
          exact h ▸ mapIntoArrayId_error_ict x p _ e₁ hx
      | ok v =>
          obtain ⟨a, c⟩ := v
          rw [hx] at h
          simp only [except_bind_ok] at h
          cases hr : mapIntoArrayIdList rest (i + 1) p pref with
          | error e₂ =>
              rw [hr] at h
              simp only [except_bind_error] at h
              injection h with h
              exact h ▸ mapIntoArrayIdList_error_ict rest (i + 1) p pref e₂ hr
          | ok w =>
              obtain ⟨a₂, c₂⟩ := w
              rw [hr] at h
              simp at h

end

theorem mapLeaf_error_ict {σ : Type} (f : σ → Child → σ × Child)
    (child : Child) (s : σ) (p n : String) (e : ReactError)
    (h : mapLeaf f child s p n = .error e) :
    ∃ ks st, e = .invalidChildType (invalidObjectMessage ks st) := by
  simp only [mapLeaf] at h
  split at h
  · split at h
    · rename_i e₁ heq
      injection h with h
      exact h ▸ mapIntoArrayId_error_ict _ _ _ e₁ heq
    · exact absurd h (by simp)
  · split at h
    · exact absurd h (by simp)
    · split at h
      · exact absurd h (by simp)
      · exact absurd h (by simp)

mutual

theorem mapIntoArray_error_ict {σ : Type} (f : σ → Child → σ × Child)
    (c : Child) (s : σ) (p n : String) (e : ReactError)
    (h : mapIntoArray f c s p n = .error e) :
    ∃ ks st, e = .invalidChildType (invalidObjectMessage ks st) := by
  cases c with
  | undef => rw [mapIntoArray] at h; exact mapLeaf_error_ict f _ s p n e h
  | bool b => rw [mapIntoArray] at h; exact mapLeaf_error_ict f _ s p n e h
  | null => rw [mapIntoArray] at h; exact mapLeaf_error_ict f _ s p n e h
  | str s' => rw [mapIntoArray] at h; exact mapLeaf_error_ict f _ s p n e h
  | num i => rw [mapIntoArray] at h; exact mapLeaf_error_ict f _ s p n e h
  | elem k t => rw [mapIntoArray] at h; exact mapLeaf_error_ict f _ s p n e h
  | arr xs =>
      rw [mapIntoArray] at h
      exact mapIntoArrayList_error_ict f xs 0 s p _ e h
  | iter xs =>
      rw [mapIntoArray] at h
      exact mapIntoArrayList_error_ict f xs 0 s p _ e h
  | obj keys strForm =>
      rw [mapIntoArray] at h
      exact ⟨keys, strForm, by injection h with h; exact h.symm⟩

theorem mapIntoArrayList_error_ict {σ : Type} (f : σ → Child → σ × Child)
    (xs : List Child) (i : Nat) (s : σ) (p pref : String) (e : ReactError)
    (h : mapIntoArrayList f xs i s p pref = .error e) :
    ∃ ks st, e = .invalidChildType (invalidObjectMessage ks st) := by
  cases xs with
  | nil => rw [mapIntoArrayList] at h; exact absurd h (by simp)
  | cons x rest =>
      rw [mapIntoArrayList] at h
      cases hx : mapIntoArray f x s p (pref ++ getElementKey x i) with
      | error e₁ =>
          rw [hx] at h
          simp only [except_bind_error] at h
          injection h with h
          exact h ▸ mapIntoArray_error_ict f x s p _ e₁ hx
      | ok v =>
          obtain ⟨a, cnt, s₁⟩ := v
          rw [hx] at h
          simp only [except_bind_ok] at h
          cases hr : mapIntoArrayList f rest (i + 1) s₁ p pref with
          | error e₂ =>
              rw [hr] at h
              simp only [except_bind_error] at h
              injection h with h
              exact h ▸ mapIntoArrayList_error_ict f rest (i + 1) s₁ p pref e₂ hr
          | ok w =>
              obtain ⟨a₂, c₂, s₂⟩ := w
              rw [hr] at h
              simp at h

end

mutual

theorem mapIntoArray_containsObj {σ : Type} (f : σ → Child → σ × Child)
    (c : Child) (s : σ) (p n : String) (hco : containsObj c = true) :
    ∃ e, mapIntoArray f c s p n = .error e := by
  cases c with
  | undef => simp [containsObj] at hco
  | bool b => simp [containsObj] at hco
  | null => simp [containsObj] at hco
  | str s' => simp [containsObj] at hco
  | num i => simp [containsObj] at hco
  | elem k t => simp [containsObj] at hco
  | arr xs =>
      rw [containsObj] at hco
      rw [mapIntoArray]
      exact mapIntoArrayList_containsObj f xs 0 s p _ hco
  | iter xs =>
      rw [containsObj] at hco
      rw [mapIntoArray]
      exact mapIntoArrayList_containsObj f xs 0 s p _ hco
  | obj keys strForm => exact ⟨_, by rw [mapIntoArray]⟩

theorem mapIntoArrayList_containsObj {σ : Type} (f : σ → Child → σ × Child)
    (xs : List Child) (i : Nat) (s : σ) (p pref : String)
    (hco : containsObjList xs = true) :
    ∃ e, mapIntoArrayList f xs i s p pref = .error e := by
  cases xs with
  | nil => simp [containsObjList] at hco
  | cons x rest =>
      rw [containsObjList] at hco
      cases hx : containsObj x with
      | true =>
          obtain ⟨e₁, he₁⟩ :=
            mapIntoArray_containsObj f x s p (pref ++ getElementKey x i) hx
          exact ⟨e₁, by rw [mapIntoArrayList, he₁]; rfl⟩
      | false =>
          have hrest : containsObjList rest = true := by
            simpa [hx] using hco
          cases hx1 : mapIntoArray f x s p (pref ++ getElementKey x i) with
          | error e₁ => exact ⟨e₁, by rw [mapIntoArrayList, hx1]; rfl⟩
          | ok v =>
              obtain ⟨a, cnt, s₁⟩ := v
              obtain ⟨e₂, he₂⟩ :=
                mapIntoArrayList_containsObj f rest (i + 1) s₁ p pref hrest
              refine ⟨e₂, ?_⟩
              rw [mapIntoArrayList, hx1]
              simp only [except_bind_ok]
              rw [he₂]
              rfl

end

mutual

theorem mapIntoArrayId_containsObj (c : Child) (p n : String)
    (hco : containsObj c = true) : ∃ e, mapIntoArrayId c p n = .error e := by
  cases c with
  | undef => simp [containsObj] at hco
  | bool b => simp [containsObj] at hco
  | null => simp [containsObj] at hco
  | str s' => simp [containsObj] at hco
  | num i => simp [containsObj] at hco
  | elem k t => simp [containsObj] at hco
  | arr xs =>
      rw [containsObj] at hco
      rw [mapIntoArrayId]
      exact mapIntoArrayIdList_containsObj xs 0 p _ hco
  | iter xs =>
      rw [containsObj] at hco
      rw [mapIntoArrayId]
      exact mapIntoArrayIdList_containsObj xs 0 p _ hco
  | obj keys strForm => exact ⟨_, by rw [mapIntoArrayId]⟩

theorem mapIntoArrayIdList_containsObj (xs : List Child) (i : Nat)
    (p pref : String) (hco : containsObjList xs = true) :
    ∃ e, mapIntoArrayIdList xs i p pref = .error e := by
  cases xs with
  | nil => simp [containsObjList] at hco
  | cons x rest =>
      rw [containsObjList] at hco
      cases hx : containsObj x with
      | true =>
          obtain ⟨e₁, he₁⟩ :=
            mapIntoArrayId_containsObj x p (pref ++ getElementKey x i) hx
          exact ⟨e₁, by rw [mapIntoArrayIdList, he₁]; rfl⟩
      | false =>
          have hrest : containsObjList rest = true := by
            simpa [hx] using hco
          cases hx1 : mapIntoArrayId x p (pref ++ getElementKey x i) with
          | error e₁ => exact ⟨e₁, by rw [mapIntoArrayIdList, hx1]; rfl⟩
          | ok v =>
              obtain ⟨a, cnt⟩ := v
              obtain ⟨e₂, he₂⟩ :=
                mapIntoArrayIdList_containsObj rest (i + 1) p pref hrest
              refine ⟨e₂, ?_⟩
              rw [mapIntoArrayIdList, hx1]
              simp only [except_bind_ok]
              rw [he₂]
              rfl

end

theorem mapIntoArrayId_arr_error (xs : List Child) (p n : String)
    (hxs : containsObjList xs = true) :
    ∃ ks st, mapIntoArrayId (Child.arr xs) p n =
      .error (.invalidChildType (invalidObjectMessage ks st)) := by
  obtain ⟨e, he⟩ := mapIntoArrayId_containsObj (Child.arr xs) p n
    (by rw [containsObj]; exact hxs)
  obtain ⟨ks, st, hm⟩ := mapIntoArrayId_error_ict _ p n e he
  exact ⟨ks, st, hm ▸ he⟩

theorem mapLeaf_arr_containsObj {σ : Type} (f : σ → Child → σ × Child)
    (child : Child) (s : σ) (p n : String) (xs : List Child)
    (hres : (f s child).2 = Child.arr xs)
    (hxs : containsObjList xs = true) :
    ∃ ks st, mapLeaf f child s p n =
      .error (.invalidChildType (invalidObjectMessage ks st)) := by
  obtain ⟨ks, st, he⟩ := mapIntoArrayId_arr_error xs
    (escapeUserProvidedKey
      (if n = "" then SEPARATOR ++ getElementKey child 0 else n) ++ "/")
    "" hxs
  refine ⟨ks, st, ?_⟩
  simp only [mapLeaf, hres, isArr, if_pos rfl, he]
  exact if_pos trivial

theorem string_data_append (a b : String) :
    (a ++ b).data = a.data ++ b.data := by
  cases a; cases b; rfl

theorem invalidObjectMessage_includes (ks : List String) (st : String) :
    ∃ l r, (invalidObjectMessage ks st).data =
      l ++ (if st = "[object Object]" then
        "object with keys \x7b" ++ String.intercalate ", " ks ++ "\x7d"
        else st).data ++ r := by
  refine ⟨("Objects are not valid as a React child (found: " : String).data,
    ("). If you meant to render a collection of children, use an array instead." :
      String).data, ?_⟩
  simp only [invalidObjectMessage, string_data_append]

theorem mapLeaf_spec {σ : Type} (f : σ → Child → σ × Child) (child : Child)
    (s : σ) (p n : String) (hna : isArr (f s child).2 = false) :
    ∃ chunk, mapLeaf f child s p n = .ok (chunk, 1, (f s child).1) ∧
      chunkOf (f s child).2 chunk := by
  simp only [mapLeaf, hna, Bool.false_eq_true, if_false]
  by_cases h1 : isNullish (f s child).2
  · refine ⟨[], by simp [h1], Or.inl ⟨h1, rfl⟩⟩
  · by_cases h2 : isValidElement (f s child).2
    · refine ⟨[cloneAndReplaceKey (f s child).2
          (p ++ keyFragment child (f s child).2 ++
            if n = "" then SEPARATOR ++ getElementKey child 0 else n)],
        by simp [h1, h2], Or.inr (Or.inl ⟨h2, _, rfl⟩)⟩
    · refine ⟨[(f s child).2], by simp [h1, h2],
        Or.inr (Or.inr ⟨by simpa using h1, by simpa using h2, hna, rfl⟩)⟩

theorem pushWalk_single {σ : Type} {f : σ → Child → σ × Child} {s : σ}
    {c : Child} {chunk : List Child} (hc : chunkOf (f s c).2 chunk) :
    PushWalk f s [c] chunk (f s c).1 := by
  simpa using PushWalk.step s c [] [] (f s c).1 chunk hc (PushWalk.nil _)

mutual

theorem mapIntoArray_gen {σ : Type} (f : σ → Child → σ × Child)
    (hf : ∀ s c, invokeCallbackP c = true → isArr (f s c).2 = false)
    (c : Child) (s : σ) (p n : String) (hco : containsObj c = false) :
    ∃ es s', mapIntoArray f c s p n = .ok (es, (leavesPre c).length, s') ∧
      PushWalk f s (leavesPre c) es s' := by
  cases c with
  | undef =>
      obtain ⟨chunk, hok, hchunk⟩ :=
        mapLeaf_spec f .null s p n (hf s .null rfl)
      exact ⟨chunk, (f s .null).1, by rw [mapIntoArray, hok]; rfl,
        pushWalk_single hchunk⟩
  | bool b =>
      obtain ⟨chunk, hok, hchunk⟩ :=
        mapLeaf_spec f .null s p n (hf s .null rfl)
      exact ⟨chunk, (f s .null).1, by rw [mapIntoArray, hok]; rfl,
        pushWalk_single hchunk⟩
  | null =>
      obtain ⟨chunk, hok, hchunk⟩ :=
        mapLeaf_spec f .null s p n (hf s .null rfl)
      exact ⟨chunk, (f s .null).1, by rw [mapIntoArray, hok]; rfl,
        pushWalk_single hchunk⟩
  | str s₀ =>
      obtain ⟨chunk, hok, hchunk⟩ :=
        mapLeaf_spec f (.str s₀) s p n (hf s (.str s₀) rfl)
      exact ⟨chunk, (f s (.str s₀)).1, by rw [mapIntoArray, hok]; rfl,
        pushWalk_single hchunk⟩
  | num i =>
      obtain ⟨chunk, hok, hchunk⟩ :=
        mapLeaf_spec f (.num i) s p n (hf s (.num i) rfl)
      exact ⟨chunk, (f s (.num i)).1, by rw [mapIntoArray, hok]; rfl,
        pushWalk_single hchunk⟩
  | elem k t =>
      obtain ⟨chunk, hok, hchunk⟩ :=
        mapLeaf_spec f (.elem k t) s p n (hf s (.elem k t) rfl)
      exact ⟨chunk, (f s (.elem k t)).1, by rw [mapIntoArray, hok]; rfl,
        pushWalk_single hchunk⟩
  | arr xs =>
      rw [containsObj] at hco
      rw [mapIntoArray]
      exact mapIntoArrayList_gen f hf xs 0 s p _ hco
  | iter xs =>
      rw [containsObj] at hco
      rw [mapIntoArray]
      exact mapIntoArrayList_gen f hf xs 0 s p _ hco
  | obj keys strForm => simp [containsObj] at hco

theorem mapIntoArrayList_gen {σ : Type} (f : σ → Child → σ × Child)
    (hf : ∀ s c, invokeCallbackP c = true → isArr (f s c).2 = false)
    (xs : List Child) (i : Nat) (s : σ) (p pref : String)
    (hco : containsObjList xs = false) :
    ∃ es s',
      mapIntoArrayList f xs i s p pref =
        .ok (es, (leavesPreList xs).length, s') ∧
      PushWalk f s (leavesPreList xs) es s' := by
  cases xs with
  | nil => exact ⟨[], s, by rw [mapIntoArrayList]; rfl, PushWalk.nil s⟩
  | cons x rest =>
      rw [containsObjList] at hco
      have hx : containsObj x = false := by
        cases hx : containsObj x with
        | true => rw [hx] at hco; simp at hco
        | false => rfl
      have hrest : containsObjList rest = false := by
        cases hr : containsObjList rest with
        | true => rw [hr] at hco; simp at hco
        | false => rfl
      obtain ⟨es₁, s₁, h₁, w₁⟩ :=
        mapIntoArray_gen f hf x s p (pref ++ getElementKey x i) hx
      obtain ⟨es₂, s₂, h₂, w₂⟩ :=
        mapIntoArrayList_gen f hf rest (i + 1) s₁ p pref hrest
      refine ⟨es₁ ++ es₂, s₂, ?_, ?_⟩
      · rw [mapIntoArrayList, h₁]
        simp only [except_bind_ok]
        rw [h₂]
        simp [leavesPreList, List.length_append]
      · exact w₁.append w₂

end

theorem isValidElement_exists {c : Child} (h : isValidElement c = true) :
    ∃ k t, c = .elem k t := by
  cases c <;> simp [isValidElement] at h ⊢

/-- A callback that always returns `undefined` (as the `count` and
`forEach` wrappers do) pushes nothing; the walk just folds the state. -/
theorem pushWalk_undef {σ : Type} {f : σ → Child → σ × Child}
    (hres : ∀ s c, (f s c).2 = Child.undef) {s : σ} {l es : List Child}
    {s' : σ} (h : PushWalk f s l es s') :
    es = [] ∧ s' = l.foldl (fun s c => (f s c).1) s := by
  induction h with
  | nil => exact ⟨rfl, rfl⟩
  | step s c r es s' chunk hc hw ih =>
      rw [hres] at hc
      have hchunk : chunk = [] := by
        rcases hc with ⟨_, h⟩ | ⟨h, _⟩ | ⟨h, _⟩
        · exact h
        · simp [isValidElement] at h
        · simp [isNullish] at h
      subst hchunk
      exact ⟨by simpa using ih.1, by simpa using ih.2⟩

/-- A callback that returns the child itself (the `toArray` wrapper)
pushes exactly the non-nullish leaves, each equal to the visited leaf up
to element re-keying. -/
theorem pushWalk_self {σ : Type} {f : σ → Child → σ × Child}
    (hres : ∀ s c, (f s c).2 = c) {s : σ} {l es : List Child} {s' : σ}
    (h : PushWalk f s l es s') :
    List.Forall₂ sameModKey es (l.filter (fun x => !isNullish x)) := by
  induction h with
  | nil => simp
  | step s c r es s' chunk hc hw ih =>
      rw [hres] at hc
      rcases hc with ⟨hn, hchunk⟩ | ⟨hv, key, hchunk⟩ | ⟨hn, _, _, hchunk⟩
      · subst hchunk
        simpa [List.filter_cons, hn] using ih
      · obtain ⟨k, t, rfl⟩ := isValidElement_exists hv
        subst hchunk
        have hcons : sameModKey (cloneAndReplaceKey (Child.elem k t) key)
            (Child.elem k t) := Or.inr ⟨k, some key, t, rfl, rfl⟩
        simpa [List.filter_cons, isNullish] using List.Forall₂.cons hcons ih
      · subst hchunk
        have hcons : sameModKey c c := Or.inl rfl
        simpa [List.filter_cons, hn] using List.Forall₂.cons hcons ih

theorem mapChildren_gen {σ : Type} (func : σ → Child → Nat → σ × Child)
    (hf : ∀ st c, invokeCallbackP c = true → isArr (wrap func st c).2 = false)
    (c : Child) (s₀ : σ) (hco : containsObj c = false)
    (hnn : isNullish c = false) :
    ∃ es st, mapChildren c func s₀ = .ok (some es, st.1) ∧
      PushWalk (wrap func) (s₀, 0) (leavesPre c) es st := by
  obtain ⟨es, st, hok, walk⟩ := mapIntoArray_gen (wrap func) hf c (s₀, 0) "" "" hco
  refine ⟨es, st, ?_, walk⟩
  simp only [mapChildren, hnn, Bool.false_eq_true, if_false, hok, except_map_ok]

theorem foldl_count_step (l : List Child) :
    ∀ a b : Nat,
      l.foldl (fun (st : Nat × Nat) _ => (st.1 + 1, st.2 + 1)) (a, b) =
        (a + l.length, b + l.length) := by
  induction l with
  | nil => intro a b; simp
  | cons x r ih =>
      intro a b
      simp only [List.foldl_cons, List.length_cons]
      rw [ih (a + 1) (b + 1)]
      simp only [Prod.mk.injEq]
      omega

theorem countChildren_noObj (c : Child) (hco : containsObj c = false) :
    countChildren c = .ok (visitedLeaves c).length := by
  cases hnn : isNullish c with
  | true =>
      cases c <;> simp [isNullish] at hnn <;>
        simp [countChildren, mapChildren, isNullish, visitedLeaves]
  | false =>
      obtain ⟨es, st, hok, walk⟩ :=
        mapChildren_gen (fun n _ _ => (n + 1, Child.undef))
          (fun _ _ _ => rfl) c 0 hco hnn
      have hw := pushWalk_undef (f := wrap (fun n _ _ => (n + 1, Child.undef)))
        (fun _ _ => rfl) walk
      have hfun : (fun st c =>
            (wrap (fun (n : Nat) _ _ => (n + 1, Child.undef)) st c).1) =
          (fun (st : Nat × Nat) (_ : Child) => (st.1 + 1, st.2 + 1)) := rfl
      have hst : st = (0 + (leavesPre c).length, 0 + (leavesPre c).length) := by
        rw [hw.2, hfun]; exact foldl_count_step (leavesPre c) 0 0
      simp only [countChildren, hok, except_map_ok, hst]
      simp [visitedLeaves, hnn]

theorem foldl_log_step (l : List Child) :
    ∀ (acc : List Child) (k : Nat),
      l.foldl (fun (st : List Child × Nat) c => (st.1 ++ [c], st.2 + 1))
          (acc, k) =
        (acc ++ l, k + l.length) := by
  induction l with
  | nil => intro acc k; simp
  | cons x r ih =>
      intro acc k
      simp only [List.foldl_cons, List.length_cons]
      rw [ih (acc ++ [x]) (k + 1)]
      simp only [Prod.mk.injEq, List.append_assoc, List.singleton_append]
      exact ⟨trivial, by omega⟩

theorem forEachChildren_log_noObj (c : Child) (hco : containsObj c = false) :
    forEachChildren c (fun acc ch _ => acc ++ [ch]) [] =
      .ok (visitedLeaves c) := by
  cases hnn : isNullish c with
  | true =>
      cases c <;> simp [isNullish] at hnn <;>
        simp [forEachChildren, mapChildren, isNullish, visitedLeaves]
  | false =>
      obtain ⟨es, st, hok, walk⟩ :=
        mapChildren_gen (fun s c n => ((fun acc ch _ => acc ++ [ch]) s c n,
          Child.undef)) (fun _ _ _ => rfl) c [] hco hnn
      have hw := pushWalk_undef
        (f := wrap (fun s c n => ((fun acc ch _ => acc ++ [ch]) s c n,
          Child.undef))) (fun _ _ => rfl) walk
      have hfun : (fun st c =>
            (wrap (fun s c n => ((fun acc ch _ => acc ++ [ch]) s c n,
              Child.undef)) st c).1) =
          (fun (st : List Child × Nat) c => (st.1 ++ [c], st.2 + 1)) := rfl
      have hst : st = ([] ++ leavesPre c, 0 + (leavesPre c).length) := by
        rw [hw.2, hfun]; exact foldl_log_step (leavesPre c) [] 0
      simp only [forEachChildren, hok, except_map_ok, hst]
      simp [visitedLeaves, hnn]

theorem toArray_noObj (c : Child) (hco : containsObj c = false) :
    ∃ es, toArray c = .ok es ∧
      List.Forall₂ sameModKey es
        ((visitedLeaves c).filter (fun x => !isNullish x)) := by
  cases hnn : isNullish c with
  | true =>
      refine ⟨[], ?_, ?_⟩
      · cases c <;> simp [isNullish] at hnn <;>
          simp [toArray, mapChildren, isNullish]
      · simp [visitedLeaves, hnn]
  | false =>
      obtain ⟨es, st, hok, walk⟩ :=
        mapChildren_gen (fun _ c _ => ((), c)) (fun st c h => by
          cases c <;> simp [invokeCallbackP] at h <;> rfl) c () hco hnn
      have hself := pushWalk_self (f := wrap (fun _ c _ => ((), c)))
        (fun _ _ => rfl) walk
      refine ⟨es, ?_, ?_⟩
      · simp only [toArray, hok, except_map_ok, Option.getD_some]
      · simpa [visitedLeaves, hnn] using hself

/-! ### Properties of the key escapers -/

theorem colon_not_mem_escapeChars (l : List Char) : ':' ∉ escapeChars l := by
  induction l with
  | nil => simp [escapeChars]
  | cons c r ih =>
      simp only [escapeChars, List.mem_append]
      rintro (h | h)
      · by_cases h1 : c = '='
        · simp [h1] at h
        · by_cases h2 : c = ':'
          · simp [h1, h2] at h
          · simp [h1, h2] at h
            exact h2 h.symm
      · exact ih h

theorem escapeChars_ne_nil (c : Char) (r : List Char) :
    escapeChars (c :: r) ≠ [] := by
  by_cases h1 : c = '='
  · simp [escapeChars, h1]
  · by_cases h2 : c = ':' <;> simp [escapeChars, h1, h2]

theorem escapeChars_injective :
    ∀ l₁ l₂ : List Char, escapeChars l₁ = escapeChars l₂ → l₁ = l₂ := by
  intro l₁
  induction l₁ with
  | nil =>
      intro l₂ h
      cases l₂ with
      | nil => rfl
      | cons b bs => exact absurd h.symm (escapeChars_ne_nil b bs)
  | cons a as ih =>
      intro l₂ h
      cases l₂ with
      | nil => exact absurd h (escapeChars_ne_nil a as)
      | cons b bs =>
          simp only [escapeChars] at h
          by_cases ha1 : a = '='
          · subst ha1
            by_cases hb1 : b = '='
            · subst hb1
              simp at h
              rw [ih bs h]
            · by_cases hb2 : b = ':'
              · subst hb2; simp at h
              · simp [hb1, hb2] at h
                exact absurd h.1.symm hb1
          · by_cases ha2 : a = ':'
            · subst ha2
              by_cases hb1 : b = '='
              · subst hb1; simp at h
              · by_cases hb2 : b = ':'
                · subst hb2
                  simp at h
                  rw [ih bs h]
                · simp [hb1, hb2] at h
                  exact absurd h.1.symm hb1
            · by_cases hb1 : b = '='
              · subst hb1
                simp [ha1, ha2] at h
              · by_cases hb2 : b = ':'
                · subst hb2
                  simp [ha1, ha2] at h
                · simp [ha1, ha2, hb1, hb2] at h
                  rw [h.1, ih bs h.2]

theorem eukChars_replicate (k : Nat) (hk : 1 ≤ k) :
    eukChars (List.replicate k '/') = List.replicate (k + 1) '/' := by
  induction k with
  | zero => exact absurd hk (by omega)
  | succ k ih =>
      cases k with
      | zero => rfl
      | succ k' =>
          have hh : ((List.replicate (k' + 1) '/').head? = some '/') := by
            simp [List.replicate]
          have hih := ih (by omega)
          rw [show List.replicate (k' + 1 + 1) '/' =
            '/' :: List.replicate (k' + 1) '/' from rfl]
          rw [eukChars, if_pos rfl, if_pos hh, hih]
          simp [List.replicate]

theorem eukEachChars_replicate (k : Nat) :
    eukEachChars (List.replicate k '/') = List.replicate (2 * k) '/' := by
  induction k with
  | zero => rfl
  | succ k ih =>
      rw [show List.replicate (k + 1) '/' = '/' :: List.replicate k '/'
        from rfl]
      rw [eukEachChars, if_pos rfl, ih]
      have : 2 * (k + 1) = 2 * k + 1 + 1 := by omega
      rw [this]
      simp [List.replicate]

theorem eukChars_noDouble (l : List Char) (h : noDoubleSlash l = true) :
    eukChars l = eukEachChars l := by
  induction l with
  | nil => rfl
  | cons c r ih =>
      rw [noDoubleSlash] at h
      split at h
      · exact absurd h (by simp)
      · rename_i hcond
        by_cases hc : c = '/'
        · have hr : r.head? ≠ some '/' := fun hh => hcond ⟨hc, hh⟩
          subst hc
          rw [eukChars, eukEachChars, if_pos rfl, if_pos rfl, if_neg hr,
            ih h]
          rfl
        · rw [eukChars, eukEachChars, if_neg hc, if_neg hc, ih h]
          rfl

theorem containsObj_not_nullish {c : Child} (h : containsObj c = true) :
    isNullish c = false := by
  cases c <;> first | rfl | simp [containsObj] at h

theorem forEachChildren_containsObj {σ : Type} (f : σ → Child → Nat → σ)
    (s₀ : σ) (c : Child) (hco : containsObj c = true) :
    ∃ e, forEachChildren c f s₀ = .error e := by
  have hnn := containsObj_not_nullish hco
  obtain ⟨e, he⟩ := mapIntoArray_containsObj
    (wrap fun s c n => (f s c n, Child.undef)) c (s₀, 0) "" "" hco
  refine ⟨e, ?_⟩
  simp only [forEachChildren, mapChildren, hnn, Bool.false_eq_true, if_false,
    he, except_map_error]

/-! ### Claims -/

/-- C3, counterexample: the claim says `escapeUserProvidedKey` replaces
each `/` with `//` (equivalently doubles every run); on `"//"` the code
yields `"///"` (run plus one `/`), not `"////"`, so the claim and its
claimed equivalence both fail. -/
theorem C3_counterexample :
    escapeUserProvidedKey "//" = "///" ∧
    escapeUserProvidedKeyEach "//" = "////" ∧
    escapeUserProvidedKey "//" ≠ escapeUserProvidedKeyEach "//" :=
  ⟨rfl, rfl, by decide⟩

/-- C3, amended: `escapeUserProvidedKey` replaces each maximal run of
`/` characters with the run plus one additional `/`; it agrees with
"each `/` becomes `//`" exactly on strings with no two adjacent slashes,
while a run of `k ≥ 1` slashes becomes `k + 1` (not `2k`) slashes. -/
theorem C3_escapeUserProvidedKey_runs :
    (∀ s : String, noDoubleSlash s.data = true →
      escapeUserProvidedKey s = escapeUserProvidedKeyEach s) ∧
    (∀ k : Nat, 1 ≤ k →
      eukChars (List.replicate k '/') = List.replicate (k + 1) '/' ∧
      eukEachChars (List.replicate k '/') = List.replicate (2 * k) '/') := by
  constructor
  · intro s h
    exact congrArg String.mk (eukChars_noDouble s.data h)
  · intro k hk
    exact ⟨eukChars_replicate k hk, eukEachChars_replicate k⟩

/-- C3, witness: the amended statement applied at `"a/b"` and at a run of
two slashes. -/
theorem C3_witness :
    (noDoubleSlash ("a/b" : String).data = true ∧
      escapeUserProvidedKey "a/b" = escapeUserProvidedKeyEach "a/b") ∧
    (1 ≤ 2 ∧ eukChars (List.replicate 2 '/') = List.replicate (2 + 1) '/' ∧
      eukEachChars (List.replicate 2 '/') = List.replicate (2 * 2) '/') :=
  ⟨⟨by decide, C3_escapeUserProvidedKey_runs.1 "a/b" (by decide)⟩,
    ⟨by decide, C3_escapeUserProvidedKey_runs.2 2 (by decide)⟩⟩

/-- C4, counterexample: `escape` leaves the primary separator `.`
untouched, so the output of `escape` can contain a reserved separator:
`escape(".") = "$."`. -/
theorem C4_counterexample :
    escape SEPARATOR = "$." ∧ '.' ∈ (escape SEPARATOR).data :=
  ⟨rfl, by decide⟩

/-- C4, amended: `escape` guarantees only the secondary separator `:`
never occurs in its output (every `:` becomes `=2`); the primary
separator `.` may pass through. -/
theorem C4_escape_no_subseparator (s : String) :
    ((escape s).data.contains ':') = false := by
  have h : ':' ∉ (escape s).data := by
    have h2 := colon_not_mem_escapeChars s.data
    intro hmem
    have heq : (escape s).data = '$' :: escapeChars s.data := rfl
    rw [heq] at hmem
    rcases List.mem_cons.mp hmem with h | h
    · exact absurd h (by decide)
    · exact h2 h
  simpa using h

/-- C5, counterexample: `only` applied to a one-element array fails (the
check is `isValidElement(children)` on the raw input, and an array is not
an element), contradicting the claim that `only([leafA])` returns
`leafA`. -/
theorem C5_counterexample :
    onlyChild (Child.arr [Child.elem (some "a") LeafTag.element]) =
      .error (.notSingleElement
        "React.Children.only expected to receive a single React element child.") :=
  rfl

/-- C5, amended: `only` returns its input unchanged exactly when it is a
single bare leaf element; every other shape — arrays (even of length 1),
`null`, `undefined`, booleans, strings, numbers, iterables, plain
objects — fails with the NotSingleElement error. -/
theorem C5_only_single_leaf (k : Option String) (t : LeafTag)
    (xs : List Child) (s : String) (i : Int) (b : Bool)
    (keys : List String) (strForm : String) :
    onlyChild (.elem k t) = .ok (.elem k t) ∧
    onlyChild (.arr xs) = .error (.notSingleElement
      "React.Children.only expected to receive a single React element child.") ∧
    onlyChild .null = .error (.notSingleElement
      "React.Children.only expected to receive a single React element child.") ∧
    onlyChild .undef = .error (.notSingleElement
      "React.Children.only expected to receive a single React element child.") ∧
    onlyChild (.bool b) = .error (.notSingleElement
      "React.Children.only expected to receive a single React element child.") ∧
    onlyChild (.str s) = .error (.notSingleElement
      "React.Children.only expected to receive a single React element child.") ∧
    onlyChild (.num i) = .error (.notSingleElement
      "React.Children.only expected to receive a single React element child.") ∧
    onlyChild (.iter xs) = .error (.notSingleElement
      "React.Children.only expected to receive a single React element child.") ∧
    onlyChild (.obj keys strForm) = .error (.notSingleElement
      "React.Children.only expected to receive a single React element child.") :=
  ⟨rfl, rfl, rfl, rfl, rfl, rfl, rfl, rfl, rfl⟩

/-- C6: `escape` — replace every `=` by `=0` and every `:` by `=2`, then
prefix `$` — is injective: distinct raw keys have distinct escapes. -/
theorem C6_escape_injective (a b : String) (hne : a ≠ b) :
    escape a ≠ escape b := by
  intro heq
  apply hne
  have hdata : ('$' :: escapeChars a.data) = ('$' :: escapeChars b.data) :=
    congrArg String.data heq
  have htail : escapeChars a.data = escapeChars b.data := by
    injection hdata
  exact String.ext (escapeChars_injective _ _ htail)

/-- C6, witness: injectivity applied to the distinct keys `"x"` and
`"y"`. -/
theorem C6_witness : ("x" : String) ≠ "y" ∧ escape "x" ≠ escape "y" :=
  ⟨by decide, C6_escape_injective "x" "y" (by decide)⟩

/-- C9: a boolean child is normalized to `null` and visited as a single
null leaf — `map` invokes the callback exactly once with `null` at index
0, `count` returns 1, `toArray` returns the empty array — while for
`null`/`undefined` children the callback is never invoked and `count`
returns 0. -/
theorem C9_boolean_normalization (b : Bool) :
    mapChildren (Child.bool b)
      (fun (acc : List (Child × Nat)) ch i => (acc ++ [(ch, i)], Child.undef))
      [] = .ok (some [], [(Child.null, 0)]) ∧
    countChildren (Child.bool b) = .ok 1 ∧
    toArray (Child.bool b) = .ok [] ∧
    countChildren .null = .ok 0 ∧
    countChildren .undef = .ok 0 ∧
    toArray .null = .ok [] ∧
    toArray .undef = .ok [] ∧
    (∀ (σ : Type) (g : σ → Child → Nat → σ) (s₀ : σ),
      forEachChildren .null g s₀ = .ok s₀ ∧
      forEachChildren .undef g s₀ = .ok s₀) := by
  cases b <;>
    exact ⟨rfl, rfl, rfl, rfl, rfl, rfl, rfl, fun σ g s₀ => ⟨rfl, rfl⟩⟩

/-- C10: when the callback returns a non-null value that is neither an
array nor a recognized leaf element, that value is appended to the
accumulator unchanged — no cloning, no re-keying, no InvalidChildType
error — and the visit counts one leaf. -/
theorem C10_opaque_result_pushed (σ : Type) (s : σ) (c v : Child)
    (p n : String) (hinv : invokeCallbackP (normalizeChild c) = true)
    (hv1 : isNullish v = false) (hv2 : isArr v = false)
    (hv3 : isValidElement v = false) :
    mapIntoArray (fun st _ => (st, v)) c s p n = .ok ([v], 1, s) := by
  have hleaf : ∀ child : Child,
      mapLeaf (fun st _ => (st, v)) child s p n = .ok ([v], 1, s) := by
    intro child
    simp only [mapLeaf, hv2, Bool.false_eq_true, if_false, hv1, hv3]
  cases c with
  | undef => rw [mapIntoArray]; exact hleaf _
  | bool b => rw [mapIntoArray]; exact hleaf _
  | null => rw [mapIntoArray]; exact hleaf _
  | str s' => rw [mapIntoArray]; exact hleaf _
  | num i => rw [mapIntoArray]; exact hleaf _
  | elem k t => rw [mapIntoArray]; exact hleaf _
  | arr xs => simp [normalizeChild, invokeCallbackP] at hinv
  | iter xs => simp [normalizeChild, invokeCallbackP] at hinv
  | obj keys strForm => simp [normalizeChild, invokeCallbackP] at hinv

/-- C10, witness: a string leaf mapped to a plain object — the object is
pushed unchanged and no error is raised. -/
theorem C10_witness :
    invokeCallbackP (normalizeChild (Child.str "x")) = true ∧
    isNullish (Child.obj ["k"] "z") = false ∧
    isArr (Child.obj ["k"] "z") = false ∧
    isValidElement (Child.obj ["k"] "z") = false ∧
    mapIntoArray (fun (st : Unit) _ => (st, Child.obj ["k"] "z"))
      (Child.str "x") () "" "" = .ok ([Child.obj ["k"] "z"], 1, ()) :=
  ⟨rfl, rfl, rfl, rfl,
    C10_opaque_result_pushed Unit () (Child.str "x") (Child.obj ["k"] "z")
      "" "" rfl rfl rfl rfl⟩

/-- C8: a lone top-level leaf is keyed as the primary separator followed
by `resolveKey(child, 0)`, so `toArray` assigns a lone element leaf the
same key it gets when wrapped as the sole entry of a length-1 array. -/
theorem C8_lone_leaf_key (k : Option String) (t : LeafTag) :
    toArray (.elem k t) =
      .ok [.elem (some (SEPARATOR ++ getElementKey (.elem k t) 0)) t] ∧
    toArray (.arr [.elem k t]) =
      .ok [.elem (some (SEPARATOR ++ getElementKey (.elem k t) 0)) t] := by
  constructor <;>
    simp [toArray, mapChildren, isNullish, mapIntoArray, mapLeaf, wrap,
      isArr, isValidElement, cloneAndReplaceKey, keyFragment, childFalsy,
      childKeyStrictNe, elemKey, keyTruthy, String.empty_append,
      mapIntoArrayList]

/-- C7: a plain object anywhere makes the traversal fail with an
InvalidChildType error and no partial result — both when the object sits
in the input children tree (first conjunct, for arbitrary callbacks) and
when it sits inside a callback-returned array at any leaf (second
conjunct, for any callback whose result at that leaf is such an array).
In both cases the error message is `invalidObjectMessage` of an offending
object, and for every object that message contains, verbatim, the
enumerable key set rendering when the object stringifies to the generic
tag `[object Object]`, and the string form otherwise (third conjunct);
the object `\x7ba: 1\x7d` yields exactly the message naming key `a`
(fourth conjunct). -/
theorem C7_invalid_object (σ : Type) (func : σ → Child → Nat → σ × Child)
    (s₀ : σ) (c : Child) (f : σ → Child → σ × Child) (s : σ) (cb : Child)
    (xs : List Child) (p n : String)
    (hco : containsObj c = true)
    (hcb : invokeCallbackP (normalizeChild cb) = true)
    (hres : (f s (normalizeChild cb)).2 = Child.arr xs)
    (hxs : containsObjList xs = true) :
    (∃ ks st, mapChildren c func s₀ =
      .error (.invalidChildType (invalidObjectMessage ks st))) ∧
    (∃ ks st, mapIntoArray f cb s p n =
      .error (.invalidChildType (invalidObjectMessage ks st))) ∧
    (∀ ks st, ∃ l r, (invalidObjectMessage ks st).data =
      l ++ (if st = "[object Object]" then
        "object with keys \x7b" ++ String.intercalate ", " ks ++ "\x7d"
        else st).data ++ r) ∧
    toArray (.obj ["a"] "[object Object]") =
      .error (.invalidChildType
        ("Objects are not valid as a React child (found: object with keys \x7ba\x7d). If you meant to render a collection of children, use an array instead.")) := by
  refine ⟨?_, ?_, invalidObjectMessage_includes, rfl⟩
  · have hnn := containsObj_not_nullish hco
    obtain ⟨e, he⟩ :=
      mapIntoArray_containsObj (wrap func) c (s₀, 0) "" "" hco
    obtain ⟨ks, st, hm⟩ :=
      mapIntoArray_error_ict (wrap func) c (s₀, 0) "" "" e he
    refine ⟨ks, st, ?_⟩
    simp only [mapChildren, hnn, Bool.false_eq_true, if_false, he,
      except_map_error, hm]
  · cases cb with
    | undef =>
        rw [mapIntoArray]
        exact mapLeaf_arr_containsObj f _ s p n xs hres hxs
    | bool b =>
        rw [mapIntoArray]
        exact mapLeaf_arr_containsObj f _ s p n xs hres hxs
    | null =>
        rw [mapIntoArray]
        exact mapLeaf_arr_containsObj f _ s p n xs hres hxs
    | str s' =>
        rw [mapIntoArray]
        exact mapLeaf_arr_containsObj f _ s p n xs hres hxs
    | num i =>
        rw [mapIntoArray]
        exact mapLeaf_arr_containsObj f _ s p n xs hres hxs
    | elem k t =>
        rw [mapIntoArray]
        exact mapLeaf_arr_containsObj f _ s p n xs hres hxs
    | arr ys => simp [normalizeChild, invokeCallbackP] at hcb
    | iter ys => simp [normalizeChild, invokeCallbackP] at hcb
    | obj keys strForm => simp [normalizeChild, invokeCallbackP] at hcb

/-- C7, witness: an object with key set `a` nested in the input tree, and
a clean string leaf whose callback returns an array containing an object
with key set `b`. -/
theorem C7_witness :
    containsObj (Child.arr [Child.str "ok",
      Child.obj ["a"] "[object Object]"]) = true ∧
    invokeCallbackP (normalizeChild (Child.str "x")) = true ∧
    ((fun (st : Unit) _ => (st, Child.arr [Child.obj ["b"] "[object Object]"]))
        () (normalizeChild (Child.str "x"))).2 =
      Child.arr [Child.obj ["b"] "[object Object]"] ∧
    containsObjList [Child.obj ["b"] "[object Object]"] = true ∧
    ((∃ ks st, mapChildren (Child.arr [Child.str "ok",
        Child.obj ["a"] "[object Object]"])
        (fun (st : Unit) c _ => (st, c)) () =
        .error (.invalidChildType (invalidObjectMessage ks st))) ∧
      (∃ ks st, mapIntoArray
        (fun (st : Unit) _ => (st, Child.arr [Child.obj ["b"] "[object Object]"]))
        (Child.str "x") () "" "" =
        .error (.invalidChildType (invalidObjectMessage ks st))) ∧
      (∀ ks st, ∃ l r, (invalidObjectMessage ks st).data =
        l ++ (if st = "[object Object]" then
          "object with keys \x7b" ++ String.intercalate ", " ks ++ "\x7d"
          else st).data ++ r) ∧
      toArray (.obj ["a"] "[object Object]") =
        .error (.invalidChildType
          ("Objects are not valid as a React child (found: object with keys \x7ba\x7d). If you meant to render a collection of children, use an array instead."))) :=
  ⟨rfl, rfl, rfl, rfl,
    C7_invalid_object Unit (fun st c _ => (st, c)) ()
      (Child.arr [Child.str "ok", Child.obj ["a"] "[object Object]"])
      (fun (st : Unit) _ => (st, Child.arr [Child.obj ["b"] "[object Object]"]))
      () (Child.str "x") [Child.obj ["b"] "[object Object]"] "" ""
      rfl rfl rfl rfl⟩

/-- C1, counterexample: for `T = true` the flattener visits one leaf —
`forEach` invokes its callback once (with `null`) and `count(T) = 1` — but
`toArray(T)` is empty, so `toArray(T).length ≠ n`. -/
theorem C1_counterexample :
    forEachChildren (Child.bool true) (fun acc ch _ => acc ++ [ch]) [] =
      .ok [Child.null] ∧
    countChildren (Child.bool true) = .ok 1 ∧
    toArray (Child.bool true) = .ok [] :=
  ⟨rfl, rfl, rfl⟩

/-- C1, amended: if `forEach` visits the leaf sequence `log` (so the
callback is invoked `log.length` times, in that order), then `count`
returns exactly `log.length`, while `toArray` returns one entry per
non-null visited leaf, in the same order, each equal to the visited leaf
up to re-keying of element leaves. -/
theorem C1_count_toArray_forEach (c : Child) (log : List Child)
    (h : forEachChildren c (fun acc ch _ => acc ++ [ch]) [] = .ok log) :
    countChildren c = .ok log.length ∧
    ∃ es, toArray c = .ok es ∧
      List.Forall₂ sameModKey es (log.filter (fun x => !isNullish x)) := by
  have hco : containsObj c = false := by
    cases hco : containsObj c with
    | true =>
        obtain ⟨e, he⟩ := forEachChildren_containsObj _ [] c hco
        rw [h] at he
        exact absurd he (by simp)
    | false => rfl
  have hlog : log = visitedLeaves c := by
    have h2 := forEachChildren_log_noObj c hco
    rw [h] at h2
    injection h2
  subst hlog
  exact ⟨countChildren_noObj c hco, toArray_noObj c hco⟩

/-- C1, witness: a tree with a string leaf, a boolean (visited as null),
and an element leaf. -/
theorem C1_witness :
    forEachChildren
      (Child.arr [Child.str "a", Child.bool true,
        Child.elem none LeafTag.element])
      (fun acc ch _ => acc ++ [ch]) [] =
      .ok [Child.str "a", Child.null, Child.elem none LeafTag.element] ∧
    (countChildren (Child.arr [Child.str "a", Child.bool true,
        Child.elem none LeafTag.element]) =
      .ok ([Child.str "a", Child.null,
        Child.elem none LeafTag.element] : List Child).length ∧
      ∃ es, toArray (Child.arr [Child.str "a", Child.bool true,
          Child.elem none LeafTag.element]) = .ok es ∧
        List.Forall₂ sameModKey es
          (([Child.str "a", Child.null,
            Child.elem none LeafTag.element] : List Child).filter
            (fun x => !isNullish x))) :=
  ⟨rfl, C1_count_toArray_forEach
    (Child.arr [Child.str "a", Child.bool true,
      Child.elem none LeafTag.element])
    [Child.str "a", Child.null, Child.elem none LeafTag.element] rfl⟩

theorem mapLeafSpec_empty_pref {σ : Type} (f : σ → Child → σ × Child)
    (child : Child) (s : σ) (n : String) :
    mapLeafSpec f child s "" n = mapLeaf f child s "" n := by
  simp only [mapLeafSpec, mapLeaf, String.empty_append]

mutual

theorem mapIntoArraySpec_eq {σ : Type} (f : σ → Child → σ × Child)
    (c : Child) (s : σ) (n : String) :
    mapIntoArraySpec f c s "" n = mapIntoArray f c s "" n := by
  cases c with
  | undef => rw [mapIntoArraySpec, mapIntoArray, mapLeafSpec_empty_pref]
  | bool b => rw [mapIntoArraySpec, mapIntoArray, mapLeafSpec_empty_pref]
  | null => rw [mapIntoArraySpec, mapIntoArray, mapLeafSpec_empty_pref]
  | str s' => rw [mapIntoArraySpec, mapIntoArray, mapLeafSpec_empty_pref]
  | num i => rw [mapIntoArraySpec, mapIntoArray, mapLeafSpec_empty_pref]
  | elem k t => rw [mapIntoArraySpec, mapIntoArray, mapLeafSpec_empty_pref]
  | arr xs =>
      rw [mapIntoArraySpec, mapIntoArray]
      exact mapIntoArrayListSpec_eq f xs 0 s _
  | iter xs =>
      rw [mapIntoArraySpec, mapIntoArray]
      exact mapIntoArrayListSpec_eq f xs 0 s _
  | obj keys strForm => rw [mapIntoArraySpec, mapIntoArray]

theorem mapIntoArrayListSpec_eq {σ : Type} (f : σ → Child → σ × Child)
    (xs : List Child) (i : Nat) (s : σ) (pref : String) :
    mapIntoArrayListSpec f xs i s "" pref =
      mapIntoArrayList f xs i s "" pref := by
  cases xs with
  | nil => rw [mapIntoArrayListSpec, mapIntoArrayList]
  | cons x rest =>
      rw [mapIntoArrayListSpec, mapIntoArrayList,
        mapIntoArraySpec_eq f x s (pref ++ getElementKey x i)]
      cases h1 : mapIntoArray f x s "" (pref ++ getElementKey x i) with
      | error e => rfl
      | ok v =>
          obtain ⟨a₁, c₁, s₁⟩ := v
          simp only [except_bind_ok]
          rw [mapIntoArrayListSpec_eq f rest (i + 1) s₁ pref]

end

/-- C2: when the per-leaf callback returns an array, the flattener
re-flattens it with the identity callback, `nameSoFar` reset to `""`, and
an escaped prefix equal to the old prefix concatenated with
`escapeUserProvidedKey(childKey) + '/'` (the `childKey != null` guard
always holds since `childKey` is a string). The source drops the old
prefix at that call site, but the old prefix is always `""` when the
branch can run, so the flattener as invoked by every public operation is
extensionally equal to the spec-worded variant that prepends it. -/
theorem C2_spec_prefix_equivalence (σ : Type) (children : Child)
    (func : σ → Child → Nat → σ × Child) (s₀ : σ) :
    mapChildrenSpec children func s₀ = mapChildren children func s₀ := by
  simp only [mapChildrenSpec, mapChildren, mapIntoArraySpec_eq]

end ReactChildren
